import Mathlib

/-!
Shallow embedding of the environment-configuration mapper in
`packages/config/src/config-base.ts` and `packages/config/src/settings-base.ts`.

Conventions of the embedding:
* JavaScript strings are `String`; every operation on them is expressed over
  the character list `String.data`, with `toUpperCase`/`toLowerCase` modelled
  character-wise (ASCII case mapping).  `s.length` is the character count.
* A JavaScript string-keyed object is an insertion-ordered association list
  `List (String × α)`; property assignment `obj[k] = v` overwrites in place
  when the key is present and appends otherwise (`recInsert`).
* The process environment snapshot is a `List (String × Option String)`
  in iteration order; `none` is an `undefined` entry value.
* Code that can throw returns `Except`: `toFieldName` throws when
  `new RegExp(separator, "g")` fails to compile, and the Zod schema is the
  opaque validation capability `parse : candidate → Except ε α`.
* The identifiers `prefix`/`postfix` of the source are keywords in Lean and
  are rendered as `pfx`/`p`.
-/

namespace ConfigSpec

/-- Equality of `Except` results is decidable when it is on both sides. -/
instance {ε α : Type} [DecidableEq ε] [DecidableEq α] : DecidableEq (Except ε α) :=
  fun x y =>
    match x, y with
    | Except.error a, Except.error b => decidable_of_iff (a = b) (by simp)
    | Except.error _, Except.ok _ => isFalse (by simp)
    | Except.ok _, Except.error _ => isFalse (by simp)
    | Except.ok a, Except.ok b => decidable_of_iff (a = b) (by simp)

/-- JavaScript `s.toUpperCase()`, modelled character-wise on ASCII. -/
def jsToUpper (s : String) : String := String.mk (s.data.map Char.toUpper)

/-- JavaScript `s.toLowerCase()`, modelled character-wise on ASCII. -/
def jsToLower (s : String) : String := String.mk (s.data.map Char.toLower)

/-- JavaScript `s.startsWith(p)`. -/
def jsStartsWith (s p : String) : Bool := p.data.isPrefixOf s.data

/-- JavaScript `s.endsWith(p)`. -/
def jsEndsWith (s p : String) : Bool := p.data.isSuffixOf s.data

/-- JavaScript `s.length` (character count in this model). -/
def jsLength (s : String) : Nat := s.data.length

/-- JavaScript `s.slice(n)` for a non-negative index. -/
def jsSliceFrom (s : String) (n : Nat) : String := String.mk (s.data.drop n)

/-! ### Model of `new RegExp(separator, "g")` and global `String.replace`

The source compiles the configured separator as a regular expression.  The
model covers the fragment in which every pattern character is either a plain
literal or the wildcard `.`; any other regular-expression metacharacter is
modelled as a compile failure.  This is faithful on every pattern a theorem
below evaluates: a metacharacter-free pattern compiles to its literal
character sequence, `.` matches an arbitrary character, and the pattern `(`
makes `new RegExp` throw a SyntaxError (unterminated group). -/

/-- One compiled pattern atom: a literal character or the wildcard `.`. -/
inductive RegexAtom where
  | lit (c : Char)
  | anyChar
deriving DecidableEq

/-- The characters that are metacharacters of JavaScript regular expressions. -/
def regexSpecialChars : List Char :=
  ['\\', '^', '$', '.', '|', '?', '*', '+', '(', ')', '[', ']', '{', '}']

/-- Compile a pattern string of the modelled fragment; `none` models the
SyntaxError thrown by `new RegExp` on the patterns outside the fragment. -/
def parseSep : List Char → Option (List RegexAtom)
  | [] => some []
  | c :: cs =>
    if c = '.' then (parseSep cs).map (fun pat => RegexAtom.anyChar :: pat)
    else if c ∈ regexSpecialChars then none
    else (parseSep cs).map (fun pat => RegexAtom.lit c :: pat)

/-- Does one atom match one character? -/
def atomMatches : RegexAtom → Char → Bool
  | .lit c, d => c == d
  | .anyChar, _ => true

/-- Does the atom sequence match an initial segment of `l`?  Each atom of the
fragment consumes exactly one character. -/
def atomsMatch : List RegexAtom → List Char → Bool
  | [], _ => true
  | _ :: _, [] => false
  | a :: pat, c :: cs => atomMatches a c && atomsMatch pat cs

/-- Global replace for a non-empty pattern: scan left to right, replace each
leftmost match by `'_'` and resume after the matched segment.  The fuel is
an upper bound on the number of scan steps; it is instantiated with the
length of the subject, which suffices because every step consumes at least
one character. -/
def replaceGlobalAux (pat : List RegexAtom) : Nat → List Char → List Char
  | _, [] => []
  | 0, c :: cs => c :: cs
  | fuel + 1, c :: cs =>
    if atomsMatch pat (c :: cs) then
      '_' :: replaceGlobalAux pat fuel (List.drop (pat.length - 1) cs)
    else
      c :: replaceGlobalAux pat fuel cs

/-- JavaScript `l.replace(re, "_")` with the global flag for a pattern of the
fragment.  The empty pattern matches the empty string before every character
and at the end, so it interleaves `'_'` throughout. -/
def replaceGlobal (pat : List RegexAtom) (l : List Char) : List Char :=
  if pat.isEmpty then
    '_' :: l.foldr (fun c acc => c :: '_' :: acc) []
  else
    replaceGlobalAux pat l.length l

/-- `toFieldName` of config-base.ts: lower-case directly when the separator is
the default `"_"`; otherwise replace the matches of
`new RegExp(separator, "g")` by `"_"` and lower-case the result.  A separator
on which `new RegExp` throws is `Except.error ()`. -/
def toFieldName (envKey : String) (separator : String) : Except Unit String :=
  if separator = "_" then Except.ok (jsToLower envKey)
  else
    match parseSep separator.data with
    | none => Except.error ()
    | some pat => Except.ok (jsToLower (String.mk (replaceGlobal pat envKey.data)))

/-- JavaScript object property assignment `obj[k] = v` on an
insertion-ordered association list: overwrite in place when the key is
present, append otherwise. -/
def recInsert {α : Type} (m : List (String × α)) (k : String) (v : α) :
    List (String × α) :=
  if m.any (fun q => q.1 = k) then
    m.map (fun q => if q.1 = k then (k, v) else q)
  else
    m ++ [(k, v)]

/-- The loop of `collectEnvValues`: iterate the environment entries in order,
skip entries with `undefined` value, and assign the derived field name.  The
source's `if (prefixUpper && envKey.startsWith(prefixUpper)) ... else if
(!prefixUpper) ...` is rendered with string truthiness made explicit. -/
def collectEnvValuesAux (pfxUpper separator : String) :
    List (String × Option String) → List (String × String) →
    Except Unit (List (String × String))
  | [], envValues => Except.ok envValues
  | (envKey, envValue) :: rest, envValues =>
    match envValue with
    | none => collectEnvValuesAux pfxUpper separator rest envValues
    | some v =>
      if pfxUpper ≠ "" then
        if jsStartsWith envKey pfxUpper then
          match toFieldName (jsSliceFrom envKey (jsLength pfxUpper)) separator with
          | Except.error e => Except.error e
          | Except.ok f =>
            collectEnvValuesAux pfxUpper separator rest (recInsert envValues f v)
        else
          collectEnvValuesAux pfxUpper separator rest envValues
      else
        match toFieldName envKey separator with
        | Except.error e => Except.error e
        | Except.ok f =>
          collectEnvValuesAux pfxUpper separator rest (recInsert envValues f v)

/-- `collectEnvValues` of config-base.ts over an explicit environment
snapshot (`process.env` is ambient state in the source). -/
def collectEnvValues (pfx separator : String) (env : List (String × Option String)) :
    Except Unit (List (String × String)) :=
  collectEnvValuesAux (jsToUpper pfx) separator env []

/-- A JavaScript runtime value as far as config-base.ts inspects one:
`null`, `undefined`, a string, or a non-string primitive. -/
inductive JsValue where
  | vnull
  | vundef
  | vstr (s : String)
  | vnum (n : Int)
  | vbool (b : Bool)
deriving DecidableEq

/-- `SENSITIVE_POSTFIXES` of config-base.ts. -/
def SENSITIVE_POSTFIXES : List String := ["password", "pw", "key", "secret", "credentials"]

/-- `isSensitive` of config-base.ts. -/
def isSensitive (key : String) : Bool :=
  SENSITIVE_POSTFIXES.any (fun q => jsEndsWith (jsToLower key) q)

/-- `maskValue` of config-base.ts.  The source first tests
`value === null || value === undefined || value === ""`, then
`typeof value !== "string"`, then the length. -/
def maskValue : JsValue → String
  | JsValue.vnull => "<not set>"
  | JsValue.vundef => "<not set>"
  | JsValue.vstr s =>
    if s = "" then "<not set>"
    else if jsLength s ≤ 4 then "****"
    else String.mk (s.data.take 2) ++ "..." ++ String.mk (s.data.drop (jsLength s - 2))
  | JsValue.vnum _ => "****"
  | JsValue.vbool _ => "****"

/-- `getPrintableConfig` of config-base.ts: build a fresh object, assigning
each key its masked value when the key is sensitive and its original value
otherwise. -/
def getPrintableConfig (config : List (String × JsValue)) : List (String × JsValue) :=
  config.foldl
    (fun result kv =>
      recInsert result kv.1 (if isSensitive kv.1 then JsValue.vstr (maskValue kv.2) else kv.2))
    []

/-- The Zod schema as the opaque validation capability of the spec: `parse`
returns the typed value or throws the validation error (`Except.error`),
and `shape` is `Object.keys(schema.shape)`, the declared field names. -/
structure Schema (ε α : Type) where
  parse : List (String × String) → Except ε α
  shape : List String

/-- `getExtraConfigs` of config-base.ts: build a fresh object holding the
entries of `config` whose key is not among the schema's declared keys. -/
def getExtraConfigs {ε α : Type} (config : List (String × JsValue)) (schema : Schema ε α) :
    List (String × JsValue) :=
  config.foldl
    (fun extras kv =>
      if schema.shape.contains kv.1 then extras else recInsert extras kv.1 kv.2)
    []

/-- The two ways `fromEnv` can throw: the SyntaxError escaping
`new RegExp(separator, "g")` inside collection, or the schema's validation
error carried unchanged. -/
inductive FromEnvError (ε : Type) where
  | compileError
  | validationError (e : ε)
deriving DecidableEq

/-- `FromEnvOptions` of config-base.ts (`prefix` is rendered as `pfx`);
`none` is an absent property, defaulted inside `fromEnv`. -/
structure FromEnvOptions where
  pfx : Option String := none
  separator : Option String := none
deriving DecidableEq

/-- `fromEnv` of config-base.ts over an explicit environment snapshot:
collect the candidate mapping, then `schema.parse` it. -/
def fromEnv {ε α : Type} (schema : Schema ε α) (options : FromEnvOptions)
    (env : List (String × Option String)) : Except (FromEnvError ε) α :=
  let p := options.pfx.getD ""
  let separator := options.separator.getD "_"
  match collectEnvValues p separator env with
  | Except.error _ => Except.error FromEnvError.compileError
  | Except.ok envValues =>
    match schema.parse envValues with
    | Except.error e => Except.error (FromEnvError.validationError e)
    | Except.ok a => Except.ok a

/-- The `Settings` record of settings-base.ts. -/
structure Settings (α : Type) where
  config : α
  envFile : String
  caseSensitive : Bool

/-- `SettingsOptions` of settings-base.ts; `none` is an absent property. -/
structure SettingsOptions where
  envFile : Option String := none
  caseSensitive : Option Bool := none

/-- `createSettings` of settings-base.ts: default the metadata options, load
the config with `fromEnv(schema)` (no loading options), and package both. -/
def createSettings {ε α : Type} (schema : Schema ε α) (options : SettingsOptions)
    (env : List (String × Option String)) : Except (FromEnvError ε) (Settings α) :=
  let envFile := options.envFile.getD ".env"
  let caseSensitive := options.caseSensitive.getD false
  match fromEnv schema {} env with
  | Except.error e => Except.error e
  | Except.ok config => Except.ok ⟨config, envFile, caseSensitive⟩

/-- `loadConfig` of settings-base.ts; its `LoadConfigOptions` has the same
two properties as `FromEnvOptions`. -/
def loadConfig {ε α : Type} (schema : Schema ε α) (options : FromEnvOptions)
    (env : List (String × Option String)) : Except (FromEnvError ε) α :=
  fromEnv schema options env

/-! ### Derived characterizations used in theorem statements -/

/-- The contribution of one environment entry to the candidate mapping:
`some (fieldName, value)` when the entry is included by the loop of
`collectEnvValues`, `none` when it is skipped.  Mirrors the loop body's
branch structure. -/
def candidateValue (pfxUpper separator : String) :
    String × Option String → Option (String × String)
  | (_, none) => none
  | (envKey, some v) =>
    if pfxUpper ≠ "" then
      if jsStartsWith envKey pfxUpper then
        match toFieldName (jsSliceFrom envKey (jsLength pfxUpper)) separator with
        | Except.error _ => none
        | Except.ok f => some (f, v)
      else none
    else
      match toFieldName envKey separator with
      | Except.error _ => none
      | Except.ok f => some (f, v)

/-- Literal-substring replacement, the separator semantics asserted by the
spec: replace every leftmost, non-overlapping occurrence of `pat` by `'_'`.
Fueled exactly like `replaceGlobalAux` so that the two recursions align. -/
def literalReplace (pat : List Char) : Nat → List Char → List Char
  | _, [] => []
  | 0, c :: cs => c :: cs
  | fuel + 1, c :: cs =>
    if pat.isPrefixOf (c :: cs) && !pat.isEmpty then
      '_' :: literalReplace pat fuel (List.drop (pat.length - 1) cs)
    else
      c :: literalReplace pat fuel cs

/-- Field-name derivation as the spec words it: every occurrence of the
separator replaced as a literal substring, then lower-cased. -/
def toFieldNameLiteral (envKey : String) (separator : String) : String :=
  if separator = "_" then jsToLower envKey
  else jsToLower (String.mk (literalReplace separator.data envKey.data.length envKey.data))

/-- The spec's masking rule for string values, with the empty string going to
the not-set marker as the code forces: empty input yields `"<not set>"`, a
non-empty input of length at most 4 yields the fixed marker, and a longer
input yields its first two characters, `"..."`, and its last two. -/
def maskSpecString (v : String) : String :=
  if v = "" then "<not set>"
  else if jsLength v ≤ 4 then "****"
  else String.mk (v.data.take 2) ++ "..." ++ String.mk (v.data.drop (jsLength v - 2))

/-- The spec's ordered masking cases over runtime values: absent or empty
first, then non-string, then short string, then the two-plus-two form. -/
def maskSpecValue (v : JsValue) : String :=
  match v with
  | JsValue.vnull => "<not set>"
  | JsValue.vundef => "<not set>"
  | JsValue.vstr s => maskSpecString s
  | JsValue.vnum _ => "****"
  | JsValue.vbool _ => "****"

/-- The spec's sensitivity rule: the lower-cased key ends with one of the
five sensitive suffixes. -/
def sensitiveSpec (key : String) : Bool :=
  ["password", "pw", "key", "secret", "credentials"].any
    (fun q => jsEndsWith (jsToLower key) q)

/-- A schema whose validation capability accepts every candidate mapping;
it rejects nothing, so any failure of `fromEnv` over it cannot come from
validation. -/
def acceptAllSchema : Schema Unit Unit where
  parse := fun _ => Except.ok ()
  shape := []

/-- A schema whose validation capability rejects every candidate mapping
with the fixed error `"boom"`. -/
def rejectAllSchema : Schema String Nat where
  parse := fun _ => Except.error "boom"
  shape := []

/-- A schema declaring the single field name `host` (its validation
capability accepts everything; only the shape is exercised). -/
def hostSchema : Schema Unit Unit where
  parse := fun _ => Except.ok ()
  shape := ["host"]

/-! ### Association-list lemmas for `recInsert` -/

theorem lookup_map_keep {α : Type} (k f : String) (v : α) (h : f ≠ k) :
    ∀ m : List (String × α),
      List.lookup f (m.map (fun q => if q.1 = k then (k, v) else q)) = List.lookup f m := by
  intro m
  induction m with
  | nil => rfl
  | cons a t ih =>
    obtain ⟨a1, a2⟩ := a
    simp only [List.map_cons]
    by_cases hak : a1 = k
    · have hhead : (if ((a1, a2) : String × α).1 = k then (k, v) else (a1, a2)) = (k, v) := by
        simp [hak]
      rw [hhead]
      have hfk : (f == k) = false := by simp [h]
      have hfa : (f == a1) = false := by
        simp [show f ≠ a1 from fun hh => h (hh.trans hak)]
      simp [List.lookup_cons, hfk, hfa, ih]
    · have hhead : (if ((a1, a2) : String × α).1 = k then (k, v) else (a1, a2)) = (a1, a2) := by
        simp [hak]
      rw [hhead]
      cases hfa : f == a1 <;> simp [List.lookup_cons, hfa, ih]

theorem lookup_of_any_key {α : Type} (k : String) (v : α) :
    ∀ m : List (String × α), m.any (fun q => q.1 = k) = true →
      List.lookup k (m.map (fun q => if q.1 = k then (k, v) else q)) = some v := by
  intro m
  induction m with
  | nil => intro h; simp at h
  | cons a t ih =>
    intro h
    obtain ⟨a1, a2⟩ := a
    simp only [List.map_cons]
    by_cases hak : a1 = k
    · have hhead : (if ((a1, a2) : String × α).1 = k then (k, v) else (a1, a2)) = (k, v) := by
        simp [hak]
      rw [hhead]
      simp [List.lookup_cons]
    · have hhead : (if ((a1, a2) : String × α).1 = k then (k, v) else (a1, a2)) = (a1, a2) := by
        simp [hak]
      rw [hhead]
      have ht : t.any (fun q => q.1 = k) = true := by
        simp only [List.any_cons, decide_eq_true_eq, Bool.or_eq_true] at h
        rcases h with h | h
        · exact absurd h hak
        · exact h
      have hka : (k == a1) = false := by
        simp [show k ≠ a1 from fun hh => hak hh.symm]
      simp [List.lookup_cons, hka, ih ht]

theorem lookup_eq_none_of_not_any {α : Type} (f : String) :
    ∀ m : List (String × α), m.any (fun q => q.1 = f) = false → List.lookup f m = none := by
  intro m
  induction m with
  | nil => intro _; rfl
  | cons a t ih =>
    intro h
    obtain ⟨a1, a2⟩ := a
    simp only [List.any_cons, Bool.or_eq_false_iff, decide_eq_false_iff_not] at h
    have hfa : (f == a1) = false := by
      simp [show f ≠ a1 from fun hh => h.1 hh.symm]
    simp [List.lookup_cons, hfa, ih h.2]

theorem lookup_append_single {α : Type} (f k : String) (v : α) :
    ∀ m : List (String × α),
      List.lookup f (m ++ [(k, v)]) =
        match List.lookup f m with
        | some b => some b
        | none => if f = k then some v else none := by
  intro m
  induction m with
  | nil =>
    simp only [List.nil_append, List.lookup_nil]
    cases hfk : f == k
    · simp [List.lookup_cons, hfk, beq_eq_false_iff_ne.mp hfk]
    · simp [List.lookup_cons, hfk, eq_of_beq hfk]
  | cons a t ih =>
    obtain ⟨a1, a2⟩ := a
    simp only [List.cons_append]
    cases hfa : f == a1 <;> simp [List.lookup_cons, hfa, ih]

/-- `obj[k] = v` then reading `f`: the inserted value when `f = k`, the old
binding otherwise. -/
theorem lookup_recInsert {α : Type} (m : List (String × α)) (k f : String) (v : α) :
    List.lookup f (recInsert m k v) = if f = k then some v else List.lookup f m := by
  by_cases hfk : f = k
  · subst hfk
    rw [if_pos rfl]
    unfold recInsert
    by_cases hany : m.any (fun q => q.1 = f) = true
    · rw [if_pos hany]
      exact lookup_of_any_key f v m hany
    · rw [if_neg hany, lookup_append_single]
      have hany' : m.any (fun q => q.1 = f) = false := by
        cases hb : m.any (fun q => q.1 = f)
        · rfl
        · exact absurd hb hany
      rw [lookup_eq_none_of_not_any f m hany']
      simp
  · rw [if_neg hfk]
    unfold recInsert
    by_cases hany : m.any (fun q => q.1 = k) = true
    · rw [if_pos hany]
      exact lookup_map_keep k f v hfk m
    · rw [if_neg hany, lookup_append_single]
      cases List.lookup f m <;> simp [hfk]

theorem keys_map_replace {α : Type} (k : String) (v : α) (m : List (String × α)) :
    (m.map (fun q => if q.1 = k then (k, v) else q)).map Prod.fst = m.map Prod.fst := by
  rw [List.map_map]
  refine List.map_congr_left ?_
  intro q _
  by_cases hq : q.1 = k <;> simp [hq]

theorem any_key_iff_mem {α : Type} (k : String) (m : List (String × α)) :
    m.any (fun q => q.1 = k) = true ↔ k ∈ m.map Prod.fst := by
  simp only [List.any_eq_true, decide_eq_true_eq, List.mem_map]

/-- The key set after `obj[k] = v` is the old key set plus `k`. -/
theorem mem_keys_recInsert {α : Type} (m : List (String × α)) (k a : String) (v : α) :
    a ∈ (recInsert m k v).map Prod.fst ↔ a ∈ m.map Prod.fst ∨ a = k := by
  unfold recInsert
  by_cases hany : m.any (fun q => q.1 = k) = true
  · rw [if_pos hany, keys_map_replace]
    have hk : k ∈ m.map Prod.fst := (any_key_iff_mem k m).mp hany
    constructor
    · exact Or.inl
    · rintro (h | rfl)
      · exact h
      · exact hk
  · rw [if_neg hany]
    simp

theorem recInsert_of_not_mem {α : Type} (m : List (String × α)) (k : String) (v : α)
    (h : k ∉ m.map Prod.fst) : recInsert m k v = m ++ [(k, v)] := by
  unfold recInsert
  exact if_neg (fun hany => h ((any_key_iff_mem k m).mp hany))

/-! ### Folding `recInsert` over an entry sequence -/

/-- Reading `f` after assigning a sequence of entries: the latest entry with
key `f` wins; with no such entry the accumulator's binding is read. -/
theorem lookup_foldl_recInsert {α : Type} (l : List (String × α)) :
    ∀ (acc : List (String × α)) (f : String),
      List.lookup f (l.foldl (fun m kv => recInsert m kv.1 kv.2) acc) =
        match l.reverse.find? (fun kv => kv.1 == f) with
        | some kv => some kv.2
        | none => List.lookup f acc := by
  induction l with
  | nil => intro acc f; rfl
  | cons kv t ih =>
    intro acc f
    simp only [List.foldl_cons, List.reverse_cons, List.find?_append]
    rw [ih]
    cases hfind : t.reverse.find? (fun q => q.1 == f)
    · simp only [hfind, Option.none_or]
      rw [lookup_recInsert]
      cases hkvf : kv.1 == f
      · have : ¬f = kv.1 := fun hh => by
          rw [hh] at hkvf
          simp at hkvf
        simp [List.find?, hkvf, this]
      · have : f = kv.1 := (eq_of_beq hkvf).symm
        simp [List.find?, hkvf, this]
    · simp [hfind]

/-- The key set after assigning a sequence of entries is the accumulator's
key set united with the keys of the sequence. -/
theorem mem_keys_foldl_recInsert {α : Type} (l : List (String × α)) :
    ∀ (acc : List (String × α)) (a : String),
      a ∈ (l.foldl (fun m kv => recInsert m kv.1 kv.2) acc).map Prod.fst ↔
        a ∈ acc.map Prod.fst ∨ a ∈ l.map Prod.fst := by
  induction l with
  | nil => intro acc a; simp
  | cons kv t ih =>
    intro acc a
    simp only [List.foldl_cons, List.map_cons, List.mem_cons]
    rw [ih, mem_keys_recInsert]
    tauto

/-! ### `collectEnvValues` as a fold of its included entries -/

/-- A successful run of the collection loop is the fold of `recInsert` over
the entries the loop includes, in iteration order. -/
theorem collectEnvValuesAux_eq_foldl (pu s : String) :
    ∀ (env : List (String × Option String)) (acc m : List (String × String)),
      collectEnvValuesAux pu s env acc = Except.ok m →
      m = (env.filterMap (candidateValue pu s)).foldl
            (fun r kv => recInsert r kv.1 kv.2) acc := by
  intro env
  induction env with
  | nil =>
    intro acc m h
    simp only [collectEnvValuesAux] at h
    cases h
    rfl
  | cons e rest ih =>
    intro acc m h
    obtain ⟨envKey, envValue⟩ := e
    cases envValue with
    | none =>
      simp only [collectEnvValuesAux] at h
      simpa [candidateValue] using ih acc m h
    | some v =>
      by_cases hpu : pu ≠ ""
      · by_cases hsw : jsStartsWith envKey pu = true
        · cases htf : toFieldName (jsSliceFrom envKey (jsLength pu)) s with
          | error e' =>
            simp only [collectEnvValuesAux, if_pos hpu, hsw, if_pos, htf] at h
            exact absurd h (by simp)
          | ok f =>
            simp only [collectEnvValuesAux, if_pos hpu, hsw, if_pos, htf] at h
            have := ih (recInsert acc f v) m h
            simpa [candidateValue, if_pos hpu, hsw, htf] using this
        · have hsw' : jsStartsWith envKey pu = false := by
            cases hb : jsStartsWith envKey pu
            · rfl
            · exact absurd hb hsw
          simp only [collectEnvValuesAux, if_pos hpu, hsw'] at h
          have := ih acc m h
          simpa [candidateValue, if_pos hpu, hsw'] using this
      · have hpu' : pu = "" := by
          by_contra hc
          exact hpu hc
        subst hpu'
        cases htf : toFieldName envKey s with
        | error e' =>
          simp [collectEnvValuesAux, htf] at h
        | ok f =>
          simp only [collectEnvValuesAux, ne_eq, not_true_eq_false, if_false, htf] at h
          have := ih (recInsert acc f v) m h
          simpa [candidateValue, htf] using this

/-! ### Totality of field-name derivation and collection -/

theorem toFieldName_ok (s : String)
    (hs : s = "_" ∨ (parseSep s.data).isSome = true) (k : String) :
    ∃ r, toFieldName k s = Except.ok r := by
  unfold toFieldName
  by_cases h : s = "_"
  · rw [if_pos h]
    exact ⟨_, rfl⟩
  · rw [if_neg h]
    rcases hs with hs | hs
    · exact absurd hs h
    · cases hp : parseSep s.data with
      | none => rw [hp] at hs; simp at hs
      | some pat => exact ⟨_, rfl⟩

theorem collectEnvValuesAux_ok (pu s : String)
    (hs : s = "_" ∨ (parseSep s.data).isSome = true) :
    ∀ (env : List (String × Option String)) (acc : List (String × String)),
      ∃ m, collectEnvValuesAux pu s env acc = Except.ok m := by
  intro env
  induction env with
  | nil => intro acc; exact ⟨acc, rfl⟩
  | cons e rest ih =>
    intro acc
    obtain ⟨envKey, envValue⟩ := e
    cases envValue with
    | none => simpa [collectEnvValuesAux] using ih acc
    | some v =>
      by_cases hpu : pu ≠ ""
      · by_cases hsw : jsStartsWith envKey pu = true
        · obtain ⟨f, hf⟩ := toFieldName_ok s hs (jsSliceFrom envKey (jsLength pu))
          obtain ⟨m, hm⟩ := ih (recInsert acc f v)
          exact ⟨m, by simp [collectEnvValuesAux, if_pos hpu, hsw, hf, hm]⟩
        · have hsw' : jsStartsWith envKey pu = false := by
            cases hb : jsStartsWith envKey pu
            · rfl
            · exact absurd hb hsw
          obtain ⟨m, hm⟩ := ih acc
          exact ⟨m, by simp [collectEnvValuesAux, if_pos hpu, hsw', hm]⟩
      · have hpu' : pu = "" := by
          by_contra hc
          exact hpu hc
        subst hpu'
        obtain ⟨f, hf⟩ := toFieldName_ok s hs envKey
        obtain ⟨m, hm⟩ := ih (recInsert acc f v)
        exact ⟨m, by simp [collectEnvValuesAux, hf, hm]⟩

/-! ### The regex fragment on metacharacter-free patterns -/

theorem parseSep_plain :
    ∀ l : List Char, (∀ c ∈ l, c ∉ regexSpecialChars) →
      parseSep l = some (l.map RegexAtom.lit) := by
  intro l
  induction l with
  | nil => intro _; rfl
  | cons c cs ih =>
    intro h
    have hc : c ∉ regexSpecialChars := h c (List.mem_cons_self c cs)
    have hdot : ¬c = '.' := fun hh => hc (by rw [hh]; decide)
    have hcs : ∀ c' ∈ cs, c' ∉ regexSpecialChars :=
      fun c' hc' => h c' (List.mem_cons_of_mem c hc')
    simp [parseSep, hdot, hc, ih hcs]

theorem atomsMatch_map_lit :
    ∀ (pat l : List Char), atomsMatch (pat.map RegexAtom.lit) l = pat.isPrefixOf l := by
  intro pat
  induction pat with
  | nil => intro l; cases l <;> rfl
  | cons p ps ih =>
    intro l
    cases l with
    | nil => rfl
    | cons c cs => simp [atomsMatch, atomMatches, List.isPrefixOf, ih]

theorem replaceGlobalAux_map_lit (pat : List Char) (hne : pat ≠ []) :
    ∀ (fuel : Nat) (l : List Char),
      replaceGlobalAux (pat.map RegexAtom.lit) fuel l = literalReplace pat fuel l := by
  intro fuel
  induction fuel with
  | zero => intro l; cases l <;> rfl
  | succ n ih =>
    intro l
    cases l with
    | nil => rfl
    | cons c cs =>
      have hemp : pat.isEmpty = false := by
        cases pat
        · exact absurd rfl hne
        · rfl
      simp only [replaceGlobalAux, literalReplace, atomsMatch_map_lit, hemp,
        Bool.not_false, Bool.and_true, List.length_map]
      cases hm : pat.isPrefixOf (c :: cs) <;> simp [ih]

/-- A string with an empty character list is the empty string. -/
theorem data_eq_nil_iff (s : String) : s.data = [] ↔ s = "" := by
  constructor
  · intro h
    cases s with
    | mk data => exact congrArg String.mk h
  · intro h
    rw [h]

theorem jsToUpper_ne_empty {s : String} (h : s ≠ "") : jsToUpper s ≠ "" := by
  intro hc
  have h2 : s.data.map Char.toUpper = [] := congrArg String.data hc
  exact h ((data_eq_nil_iff s).mp (List.map_eq_nil_iff.mp h2))

/-! ### Folding with fresh keys -/

/-- Assigning entries with pairwise-distinct keys, none already present,
appends them in order (`getPrintableConfig`'s loop shape). -/
theorem foldl_print_aux :
    ∀ (config acc : List (String × JsValue)),
      (config.map Prod.fst).Nodup →
      (∀ a ∈ config.map Prod.fst, a ∉ acc.map Prod.fst) →
      config.foldl
        (fun result kv =>
          recInsert result kv.1 (if isSensitive kv.1 then JsValue.vstr (maskValue kv.2) else kv.2))
        acc
      = acc ++ config.map
          (fun kv => (kv.1, if isSensitive kv.1 then JsValue.vstr (maskValue kv.2) else kv.2)) := by
  intro config
  induction config with
  | nil => intro acc _ _; simp
  | cons kv rest ih =>
    intro acc hnodup hdisj
    obtain ⟨k, v⟩ := kv
    simp only [List.map_cons, List.nodup_cons] at hnodup
    have hkacc : k ∉ acc.map Prod.fst := hdisj k (by simp)
    have hstep :
        recInsert acc k (if isSensitive k then JsValue.vstr (maskValue v) else v) =
          acc ++ [(k, if isSensitive k then JsValue.vstr (maskValue v) else v)] :=
      recInsert_of_not_mem acc k _ hkacc
    simp only [List.foldl_cons, hstep]
    rw [ih (acc ++ [(k, if isSensitive k then JsValue.vstr (maskValue v) else v)]) hnodup.2]
    · simp
    · intro a ha
      simp only [List.map_append, List.mem_append, List.map_cons, List.map_nil,
        List.mem_singleton, not_or]
      constructor
      · exact hdisj a (by simp [ha])
      · intro hak
        rw [hak] at ha
        exact hnodup.1 ha

/-- Conditionally assigning entries with pairwise-distinct fresh keys
appends the kept entries in order (`getExtraConfigs`'s loop shape). -/
theorem foldl_extras_aux (shape : List String) :
    ∀ (config acc : List (String × JsValue)),
      (config.map Prod.fst).Nodup →
      (∀ a ∈ config.map Prod.fst, a ∉ acc.map Prod.fst) →
      config.foldl
        (fun extras kv => if shape.contains kv.1 then extras else recInsert extras kv.1 kv.2)
        acc
      = acc ++ config.filter (fun kv => !shape.contains kv.1) := by
  intro config
  induction config with
  | nil => intro acc _ _; simp
  | cons kv rest ih =>
    intro acc hnodup hdisj
    obtain ⟨k, v⟩ := kv
    simp only [List.map_cons, List.nodup_cons] at hnodup
    by_cases hc : shape.contains k = true
    · have hmem : k ∈ shape := by simpa using hc
      simp only [List.foldl_cons, hc, if_true]
      rw [ih acc hnodup.2 (fun a ha => hdisj a (by simp [ha]))]
      simp [List.filter_cons, hmem]
    · have hmem : k ∉ shape := by
        intro hk
        exact hc (by simpa using hk)
      have hkacc : k ∉ acc.map Prod.fst := hdisj k (by simp)
      simp only [List.foldl_cons]
      rw [if_neg hc]
      rw [recInsert_of_not_mem acc k v hkacc]
      rw [ih (acc ++ [(k, v)]) hnodup.2]
      · simp [List.filter_cons, hmem]
      · intro a ha
        simp only [List.map_append, List.mem_append, List.map_cons, List.map_nil,
          List.mem_singleton, not_or]
        constructor
        · exact hdisj a (by simp [ha])
        · intro hak
          rw [hak] at ha
          exact hnodup.1 ha

/-! ### Bridging the code's masking to the spec's wording -/

theorem isSensitive_eq_spec (k : String) : isSensitive k = sensitiveSpec k := rfl

theorem maskValue_eq_spec (v : JsValue) : maskValue v = maskSpecValue v := by
  cases v <;> rfl

/-! ## Claim theorems -/

/-- C1, counterexample: with the non-empty prefix `"redis_"`, the variable
name `"redis_host"` starts with the prefix case-insensitively, yet the
candidate mapping is empty — the entry is excluded, so inclusion is not
decided by a case-insensitive prefix match. -/
theorem collectEnvValues_caseInsensitive_counterexample :
    collectEnvValues "redis_" "_" [("redis_host", some "x")] = Except.ok [] ∧
    jsStartsWith (jsToUpper "redis_host") (jsToUpper "redis_") = true := by
  constructor
  · decide
  · decide

/-- C1 (amended): for a non-empty prefix, an environment entry with a
defined value contributes a field name to the candidate mapping if and only
if its variable name starts, case-sensitively, with the upper-cased prefix;
the field name is then derived from the remainder after stripping the
upper-cased prefix's length. -/
theorem collectEnvValues_mem_keys_iff (pfx s : String)
    (env : List (String × Option String)) (m : List (String × String))
    (hp : pfx ≠ "") (h : collectEnvValues pfx s env = Except.ok m) (f : String) :
    f ∈ m.map Prod.fst ↔
      ∃ k v, (k, some v) ∈ env ∧ jsStartsWith k (jsToUpper pfx) = true ∧
        toFieldName (jsSliceFrom k (jsLength (jsToUpper pfx))) s = Except.ok f := by
  have hpu : jsToUpper pfx ≠ "" := jsToUpper_ne_empty hp
  have hm := collectEnvValuesAux_eq_foldl (jsToUpper pfx) s env [] m h
  rw [hm, mem_keys_foldl_recInsert]
  simp only [List.map_nil, List.not_mem_nil, false_or]
  constructor
  · intro hf
    rw [List.mem_map] at hf
    obtain ⟨pr, hpr, hprf⟩ := hf
    rw [List.mem_filterMap] at hpr
    obtain ⟨entry, hentry, hcv⟩ := hpr
    obtain ⟨k, ov⟩ := entry
    cases ov with
    | none => simp [candidateValue] at hcv
    | some v =>
      simp only [candidateValue] at hcv
      rw [if_pos hpu] at hcv
      by_cases hsw : jsStartsWith k (jsToUpper pfx) = true
      · rw [if_pos hsw] at hcv
        cases htf : toFieldName (jsSliceFrom k (jsLength (jsToUpper pfx))) s with
        | error e =>
          rw [htf] at hcv
          simp at hcv
        | ok f' =>
          simp only [htf] at hcv
          have hpr' : pr = (f', v) := (Option.some.inj hcv).symm
          subst hpr'
          have hf' : f' = f := hprf
          subst hf'
          exact ⟨k, v, hentry, hsw, htf⟩
      · rw [if_neg hsw] at hcv
        simp at hcv
  · rintro ⟨k, v, hkv, hsw, htf⟩
    rw [List.mem_map]
    refine ⟨(f, v), ?_, rfl⟩
    rw [List.mem_filterMap]
    refine ⟨(k, some v), hkv, ?_⟩
    simp only [candidateValue]
    rw [if_pos hpu, if_pos hsw, htf]

/-- C1 witness: the amended characterization applied to the environment
`[REDIS_HOST=h, OTHER=x]` with prefix `"REDIS_"`. -/
theorem collectEnvValues_mem_keys_iff_witness :
    "host" ∈ ([("host", "h")] : List (String × String)).map Prod.fst ↔
      ∃ k v, (k, some v) ∈ [("REDIS_HOST", some "h"), ("OTHER", some "x")] ∧
        jsStartsWith k (jsToUpper "REDIS_") = true ∧
        toFieldName (jsSliceFrom k (jsLength (jsToUpper "REDIS_"))) "_" = Except.ok "host" :=
  collectEnvValues_mem_keys_iff "REDIS_" "_" [("REDIS_HOST", some "h"), ("OTHER", some "x")]
    [("host", "h")] (by decide) (by decide) "host"

/-- C2, counterexample: the empty string has length at most 4 but masks to
the not-set marker, not to the fixed masked marker. -/
theorem maskValue_empty_counterexample :
    maskValue (JsValue.vstr "") = "<not set>" ∧ ("<not set>" : String) ≠ "****" := by
  constructor
  · rfl
  · decide

/-- C2 (amended): masking a string value yields the not-set marker on the
empty string, the fixed masked marker on non-empty strings of length at
most 4, and the first two characters plus `"..."` plus the last two
characters on longer strings. -/
theorem maskValue_string_spec (s : String) :
    maskValue (JsValue.vstr s) = maskSpecString s := rfl

/-- C3: the printable view keeps exactly the input's key sequence, masks a
value exactly when the lower-cased key ends with one of the five sensitive
suffixes (empty/absent to the not-set marker, non-string or short string to
the fixed marker, longer strings to first-two + `"..."` + last-two), and
passes every other value through unchanged. -/
theorem getPrintableConfig_spec (config : List (String × JsValue))
    (h : (config.map Prod.fst).Nodup) :
    (getPrintableConfig config).map Prod.fst = config.map Prod.fst ∧
    getPrintableConfig config =
      config.map
        (fun kv => (kv.1, if sensitiveSpec kv.1 then JsValue.vstr (maskSpecValue kv.2) else kv.2)) := by
  have hmain : getPrintableConfig config =
      config.map
        (fun kv => (kv.1, if isSensitive kv.1 then JsValue.vstr (maskValue kv.2) else kv.2)) := by
    unfold getPrintableConfig
    rw [foldl_print_aux config [] h (by simp)]
    simp
  constructor
  · rw [hmain, List.map_map]
    exact List.map_congr_left (fun kv _ => rfl)
  · rw [hmain]
    refine List.map_congr_left ?_
    intro kv _
    simp only [isSensitive_eq_spec, maskValue_eq_spec]

/-- C3 witness: the printable view of a config with one sensitive and one
ordinary field. -/
theorem getPrintableConfig_spec_witness :
    (getPrintableConfig [("password", JsValue.vstr "mypassword"), ("host", JsValue.vstr "localhost")]).map Prod.fst
        = ([("password", JsValue.vstr "mypassword"), ("host", JsValue.vstr "localhost")] : List (String × JsValue)).map Prod.fst ∧
    getPrintableConfig [("password", JsValue.vstr "mypassword"), ("host", JsValue.vstr "localhost")] =
      ([("password", JsValue.vstr "mypassword"), ("host", JsValue.vstr "localhost")] : List (String × JsValue)).map
        (fun kv => (kv.1, if sensitiveSpec kv.1 then JsValue.vstr (maskSpecValue kv.2) else kv.2)) :=
  getPrintableConfig_spec
    [("password", JsValue.vstr "mypassword"), ("host", JsValue.vstr "localhost")] (by decide)

/-- C4, counterexample: with separator `"."` the name `"AB"` contains no
occurrence of the separator as a literal substring, so literal replacement
lower-cases it to `"ab"`; the code instead compiles `"."` as a regular
expression, where it matches every character, and produces `"__"`. -/
theorem toFieldName_regex_counterexample :
    toFieldName "AB" "." = Except.ok "__" ∧ toFieldNameLiteral "AB" "." = "ab" ∧
      ("__" : String) ≠ "ab" := by
  refine ⟨by decide, by decide, by decide⟩

/-- C4 (amended): the separator is compiled as a regular expression; on a
separator that is not the default, non-empty, and free of
regular-expression metacharacters, the replacement coincides with the
spec's literal-substring replacement followed by lower-casing. -/
theorem toFieldName_literal_on_plain_separators (envKey separator : String)
    (h1 : separator ≠ "_") (h2 : separator ≠ "")
    (h3 : ∀ c ∈ separator.data, c ∉ regexSpecialChars) :
    toFieldName envKey separator = Except.ok (toFieldNameLiteral envKey separator) := by
  unfold toFieldName toFieldNameLiteral
  rw [if_neg h1, if_neg h1, parseSep_plain separator.data h3]
  have hd : separator.data ≠ [] := fun hh => h2 ((data_eq_nil_iff separator).mp hh)
  have hemp : (separator.data.map RegexAtom.lit).isEmpty = false := by
    cases hsd : separator.data with
    | nil => exact absurd hsd hd
    | cons a b => rfl
  simp only [replaceGlobal, hemp, Bool.false_eq_true, if_false]
  rw [replaceGlobalAux_map_lit separator.data hd envKey.data.length envKey.data]

/-- C4 witness: with the metacharacter-free separator `"-"`, the code's
replacement agrees with literal replacement on `"A-B"`. -/
theorem toFieldName_literal_on_plain_separators_witness :
    toFieldName "A-B" "-" = Except.ok (toFieldNameLiteral "A-B" "-") :=
  toFieldName_literal_on_plain_separators "A-B" "-" (by decide) (by decide) (by decide)

/-- C5, counterexample: collection is not total — with separator `"("`,
`new RegExp` throws on the first defined entry, so `collectEnvValues`
fails. -/
theorem collectEnvValues_throw_counterexample :
    collectEnvValues "" "(" [("A", some "x")] = Except.error () := by
  decide

/-- C5 (amended): field-name derivation and collection are total whenever
the separator is the default `"_"` or compiles as a regular expression of
the modelled fragment; masking and extras extraction are total by type.
Under that proviso, derivation succeeds on every string and collection
succeeds on every prefix and environment snapshot. -/
theorem collectEnvValues_total_of_valid_separator (sep : String)
    (hs : sep = "_" ∨ (parseSep sep.data).isSome = true) :
    (∀ k, ∃ r, toFieldName k sep = Except.ok r) ∧
    ∀ (pfx : String) (env : List (String × Option String)),
      ∃ m, collectEnvValues pfx sep env = Except.ok m := by
  refine ⟨toFieldName_ok sep hs, ?_⟩
  intro pfx env
  exact collectEnvValuesAux_ok (jsToUpper pfx) sep hs env []

/-- C5 witness: totality at the default separator `"_"`. -/
theorem collectEnvValues_total_of_valid_separator_witness :
    (∀ k, ∃ r, toFieldName k "_" = Except.ok r) ∧
    ∀ (pfx : String) (env : List (String × Option String)),
      ∃ m, collectEnvValues pfx "_" env = Except.ok m :=
  collectEnvValues_total_of_valid_separator "_" (Or.inl rfl)

/-- C6, counterexample: `fromEnv` can fail although the schema rejects
nothing — with separator `"("` over a schema that accepts every candidate,
the failure is the regular-expression compile error, not a validation
error. -/
theorem fromEnv_compileError_counterexample :
    fromEnv acceptAllSchema { pfx := none, separator := some "(" } [("A", some "x")] =
      Except.error FromEnvError.compileError := by
  decide

/-- C6 (amended): whenever collection succeeds (in particular for every
separator that compiles), `fromEnv` fails exactly when the schema's
validation capability rejects the collected candidate mapping, and the
schema's error is propagated unchanged; schema rejection is then the only
failure path. -/
theorem fromEnv_error_iff_schema_rejects {ε α : Type} (schema : Schema ε α)
    (options : FromEnvOptions) (env : List (String × Option String))
    (m : List (String × String))
    (h : collectEnvValues (options.pfx.getD "") (options.separator.getD "_") env = Except.ok m) :
    fromEnv schema options env = (schema.parse m).mapError FromEnvError.validationError := by
  unfold fromEnv
  simp only [h]
  cases hparse : schema.parse m <;> simp [Except.mapError, hparse]

/-- C6 witness: a schema rejecting every candidate makes `fromEnv` fail
with exactly that validation error. -/
theorem fromEnv_error_iff_schema_rejects_witness :
    fromEnv rejectAllSchema {} [] =
      (rejectAllSchema.parse []).mapError FromEnvError.validationError :=
  fromEnv_error_iff_schema_rejects rejectAllSchema {} [] [] (by rfl)

/-- C7: the extras view holds exactly the entries of the config whose key
is not among the schema's declared field names, values unchanged; if every
key is declared, the extras view is empty. -/
theorem getExtraConfigs_spec {ε α : Type} (schema : Schema ε α)
    (config : List (String × JsValue)) (h : (config.map Prod.fst).Nodup) :
    getExtraConfigs config schema =
      config.filter (fun kv => !schema.shape.contains kv.1) ∧
    (∀ k v, (k, v) ∈ getExtraConfigs config schema ↔
      ((k, v) ∈ config ∧ schema.shape.contains k = false)) ∧
    ((∀ kv ∈ config, schema.shape.contains kv.1 = true) →
      getExtraConfigs config schema = []) := by
  have hmain : getExtraConfigs config schema =
      config.filter (fun kv => !schema.shape.contains kv.1) := by
    unfold getExtraConfigs
    rw [foldl_extras_aux schema.shape config [] h (by simp)]
    simp
  refine ⟨hmain, ?_, ?_⟩
  · intro k v
    rw [hmain, List.mem_filter]
    simp
  · intro hall
    rw [hmain]
    rw [List.filter_eq_nil_iff]
    intro kv hkv
    simpa using hall kv hkv

/-- C7 witness: a schema declaring only `host` over a config with one
declared and one undeclared key. -/
theorem getExtraConfigs_spec_witness :
    getExtraConfigs [("host", JsValue.vstr "test"), ("extra1", JsValue.vstr "a")] hostSchema =
      ([("host", JsValue.vstr "test"), ("extra1", JsValue.vstr "a")] : List (String × JsValue)).filter
        (fun kv => !hostSchema.shape.contains kv.1) ∧
    (∀ k v, (k, v) ∈ getExtraConfigs [("host", JsValue.vstr "test"), ("extra1", JsValue.vstr "a")] hostSchema ↔
      ((k, v) ∈ ([("host", JsValue.vstr "test"), ("extra1", JsValue.vstr "a")] : List (String × JsValue)) ∧
        hostSchema.shape.contains k = false)) ∧
    ((∀ kv ∈ ([("host", JsValue.vstr "test"), ("extra1", JsValue.vstr "a")] : List (String × JsValue)),
        hostSchema.shape.contains kv.1 = true) →
      getExtraConfigs [("host", JsValue.vstr "test"), ("extra1", JsValue.vstr "a")] hostSchema = []) :=
  getExtraConfigs_spec hostSchema
    [("host", JsValue.vstr "test"), ("extra1", JsValue.vstr "a")] (by decide)

/-- C8: in a successfully collected candidate mapping, each field name is
bound to the value of the latest-iterated environment entry that derives
it (the first match in the reversed sequence of included entries). -/
theorem collectEnvValues_last_wins (pfx s : String)
    (env : List (String × Option String)) (m : List (String × String))
    (h : collectEnvValues pfx s env = Except.ok m) (f : String) :
    List.lookup f m =
      ((env.filterMap (candidateValue (jsToUpper pfx) s)).reverse.find?
        (fun kv => kv.1 == f)).map Prod.snd := by
  have hm := collectEnvValuesAux_eq_foldl (jsToUpper pfx) s env [] m h
  rw [hm, lookup_foldl_recInsert]
  cases hfind : (env.filterMap (candidateValue (jsToUpper pfx) s)).reverse.find?
      (fun kv => kv.1 == f)
  · simp
  · simp

/-- C8 witness: `A` and `a` both derive the field name `a`; the later entry
wins. -/
theorem collectEnvValues_last_wins_witness :
    List.lookup "a" ([("a", "2")] : List (String × String)) =
      ((([("A", some "1"), ("a", some "2")] : List (String × Option String)).filterMap
          (candidateValue (jsToUpper "") "_")).reverse.find?
        (fun kv => kv.1 == "a")).map Prod.snd :=
  collectEnvValues_last_wins "" "_" [("A", some "1"), ("a", some "2")] [("a", "2")]
    (by decide) "a"

/-- C10: `loadConfig` is definitionally `fromEnv` on the same options, and
`createSettings` parses with `fromEnv(schema, {})` — its `envFile` and
`caseSensitive` options never influence the parsed config and are only
copied (with their defaults) into the returned settings record. -/
theorem loadConfig_createSettings_refine {ε α : Type} (schema : Schema ε α)
    (options : FromEnvOptions) (sopts : SettingsOptions)
    (env : List (String × Option String)) :
    loadConfig schema options env = fromEnv schema options env ∧
    createSettings schema sopts env =
      (fromEnv schema {} env).map
        (fun c => ⟨c, sopts.envFile.getD ".env", sopts.caseSensitive.getD false⟩) := by
  refine ⟨rfl, ?_⟩
  unfold createSettings
  cases fromEnv schema {} env <;> rfl

end ConfigSpec
